import Mathlib

/-!
Verification development for the csys command-interpreter core
(`include/csys/*.h|.inl`): the ternary-search-tree autocomplete index,
the tokenizer (`String::NextPoi`), the reserved-character policy and the
argument parsers.  C++ strings are modelled as `List Char`; C-string
words handed to the tree never contain the NUL terminator, which is
represented implicitly by the end of the list.  Machine pointers
(`ACNode *`) become an inductive tree where `leaf` stands for `nullptr`.
-/

namespace Csys

/-- C++ buffers / words, modelled as lists of characters. -/
abbrev Str := List Char

/-- `operator[]` of `std::string`: in-range positions give the stored
character, position `size()` gives NUL (guaranteed by the standard).
Larger positions are undefined behaviour in C++ and are modelled as NUL. -/
def chAt (s : Str) (i : Nat) : Char := s.getD i (Char.ofNat 0)

/-- `std::isspace` in the C locale (space, tab, newline, vertical tab,
form feed, carriage return). -/
def isSpaceC (c : Char) : Bool :=
  c = ' ' || c = '\t' || c = '\n' || c = (Char.ofNat 11) || c = (Char.ofNat 12) || c = '\r'

/-- `std::tolower` in the C locale restricted to ASCII input. -/
def toLowerC (c : Char) : Char :=
  if 'A' ≤ c ∧ c ≤ 'Z' then Char.ofNat (c.toNat + 32) else c

/-! ## Autocomplete ternary search tree (`autocomplete.h` / `autocomplete.inl`)

`TST.leaf` models the null pointer; `TST.node less data isWord equal greater`
models one `ACNode`.  All tree data characters are nonzero (they come from
C strings), so the C++ comparison `*word < ptr->m_Data` with `*word = NUL`
at the end of a word always takes the `less` branch; the model encodes
that directly in the `[]` word cases. -/

inductive TST where
  | leaf : TST
  | node (less : TST) (data : Char) (isWord : Bool) (equal greater : TST) : TST
deriving DecidableEq, Repr

namespace TST

/-- `AutoComplete::Search` (autocomplete.inl:58-83). -/
def search : TST → Str → Bool
  | .leaf, _ => false
  | .node l _ _ _ _, [] => search l []
  | .node l d iw e g, c :: cs =>
    if c < d then search l (c :: cs)
    else if d < c then search g (c :: cs)
    else if cs = [] ∧ iw then true
    else search e cs

/-- The tree produced by `AutoComplete::Insert` (autocomplete.inl:85-122):
walks/creates nodes per character and marks the terminal node as a word. -/
def insert : TST → Str → TST
  | t, [] => t
  | .leaf, c :: cs =>
    -- `*ptr == nullptr`: a node with data `*word` is created, so the
    -- `*word == (*ptr)->m_Data` branch is taken at once.
    .node .leaf c (cs = []) (insert .leaf cs) .leaf
  | .node l d iw e g, c :: cs =>
    if c < d then .node (insert l (c :: cs)) d iw e g
    else if d < c then .node l d iw e (insert g (c :: cs))
    else if cs = [] then .node l d true e g
    else .node l d iw (insert e cs) g
termination_by t w => (w.length, sizeOf t)

/-- Whether the `--m_Count` compensation inside `Insert` fires: the word's
terminal node already exists in the tree and carries `m_IsWord` (the
descent mirrors the insertion loop on the pre-insertion tree; freshly
created nodes are never marked, so hitting `leaf` yields `false`). -/
def preMarked : TST → Str → Bool
  | .leaf, _ => false
  | .node _ _ _ _ _, [] => false
  | .node l d iw e g, c :: cs =>
    if c < d then preMarked l (c :: cs)
    else if d < c then preMarked g (c :: cs)
    else if cs = [] then iw
    else preMarked e cs

/-- `AutoComplete::RemoveAux` (autocomplete.inl:269-307), returning the
resulting subtree together with the C++ return value.  A returned `true`
tells the caller that the child node became an unmarked childless node;
the caller then `delete`s the child (modelled by replacing it with
`leaf`).  In the `less`/`greater` recursions the C++ discards the
returned flag, which the model mirrors. -/
def removeAux : TST → Str → TST × Bool
  | .leaf, _ => (.leaf, false)
  | .node l d iw e g, [] =>
    -- `*word = NUL < m_Data`: recurse left, drop the flag, return false.
    (.node (removeAux l []).1 d iw e g, false)
  | .node l d iw e g, [c] =>
    if c = d then
      if iw then
        (.node l d false e g, decide (e = .leaf ∧ l = .leaf ∧ g = .leaf))
      else (.node l d iw e g, false)
    else if c < d then (.node (removeAux l [c]).1 d iw e g, false)
    else (.node l d iw e (removeAux g [c]).1, false)
  | .node l d iw e g, c :: c2 :: cs =>
    if c < d then (.node (removeAux l (c :: c2 :: cs)).1 d iw e g, false)
    else if d < c then (.node l d iw e (removeAux g (c :: c2 :: cs)).1, false)
    else
      match removeAux e (c2 :: cs) with
      | (_, true) =>
        -- `delete root->m_Equal; root->m_Equal = nullptr;`
        (.node l d iw .leaf g, decide (iw = false ∧ l = .leaf ∧ g = .leaf))
      | (e2, false) => (.node l d iw e2 g, false)

/-- Number of nodes whose `m_IsWord` flag is set — the number of distinct
complete words currently marked in the tree (each node terminates at most
one word). -/
def wordCount : TST → Nat
  | .leaf => 0
  | .node l _ iw e g => wordCount l + (if iw then 1 else 0) + wordCount e + wordCount g

/-- `AutoComplete::SuggestionsAux` (autocomplete.inl:241-267): in-order
(`less`, self-if-word, `equal`, `greater`) accumulation of completions. -/
def suggestionsAux : TST → Str → List Str
  | .leaf, _ => []
  | .node l d iw e g, buf =>
    suggestionsAux l buf
      ++ (if iw then [buf ++ [d]] else [])
      ++ suggestionsAux e (buf ++ [d])
      ++ suggestionsAux g buf

/-- The descent loop shared by the `Suggestions` overloads: the node at
which the loop `break`s with the last character of the query matched, or
`none` when the pointer ran off the tree. -/
def findNode : TST → Str → Option TST
  | .leaf, _ => none
  | .node l _ _ _ _, [] => findNode l []
  | .node l d iw e g, [c] =>
    if c < d then findNode l [c]
    else if d < c then findNode g [c]
    else some (.node l d iw e g)
  | .node l d _ e g, c :: cs =>
    if c < d then findNode l (c :: cs)
    else if d < c then findNode g (c :: cs)
    else findNode e cs

/-- The partial-completion walk of `Suggestions` (autocomplete.inl:195-206):
starting from the `equal` child of the matched node, push characters while
the node has an `equal` child and neither a `less` nor a `greater` child. -/
def chain : TST → Str
  | .leaf => []
  | .node l d _ e g =>
    if e ≠ .leaf ∧ l = .leaf ∧ g = .leaf then d :: chain e else []

/-- `AutoComplete::Suggestions(std::string &, r_sVector, bool)`
(autocomplete.inl:176-228): returns the (possibly partially completed)
query string together with the accumulated options.  The auxiliary
traversal starts from `prefix.substr(0, prefix_end)`, i.e. the query as
it was before the in-place completion. -/
def suggestions (t : TST) (pfx : Str) (pcFlag : Bool) : Str × List Str :=
  match findNode t pfx with
  | none => (pfx, [])
  | some .leaf => (pfx, [])
  | some (.node _ _ iw e _) =>
    let pfx2 := if pcFlag then pfx ++ chain e else pfx
    if iw then (pfx2, [])
    else (pfx2, suggestionsAux e pfx)

end TST

/-- The `AutoComplete` object state relevant to word counting: the tree
root and `m_Count`.  (`m_Size` plays no role in the claims.) -/
structure AC where
  root : TST
  count : Nat
deriving DecidableEq, Repr

/-- A fresh `AutoComplete` (default constructor). -/
def AC.empty : AC := ⟨.leaf, 0⟩

/-- `AutoComplete::Insert` effect on the state: `++m_Count` up front,
compensated by `--m_Count` exactly when the terminal node already carried
`m_IsWord` (which requires a nonempty word, since the loop never runs for
an empty one). -/
def AC.insert (a : AC) (w : Str) : AC :=
  ⟨a.root.insert w, if w ≠ [] ∧ a.root.preMarked w = true then a.count else a.count + 1⟩

/-- `AutoComplete::Remove` effect on the state: rebuilds the tree through
`RemoveAux` and leaves `m_Count` untouched (the implementation never
decrements it). -/
def AC.remove (a : AC) (w : Str) : AC :=
  ⟨(a.root.removeAux w).1, a.count⟩

/-! ## Tokenizer (`string.h`) -/

/-- A `for (; pos < end; ++pos) if (cond) break;` scan: the first index at
or after `pos` (and below `s.length`) whose character fails `p`; if the
scan runs off the string the final loop counter (`max pos s.length`... in
fact `pos` itself when `pos` already exceeds the length) is returned. -/
def scanWhile (s : Str) (p : Char → Bool) (pos : Nat) : Nat :=
  if h : pos < s.length then
    if p (chAt s pos) then scanWhile s p (pos + 1) else pos
  else pos
termination_by s.length - pos

/-- `String::NextPoi(start)` (string.h:71-95): skip whitespace, then scan
the token; returns `(range, newStart)` where `newStart` is the value
written back through the `size_t &start` reference (always
`range.second`).  The initial range is `(size+1, size)`; the first
component is replaced by the token start when a non-whitespace character
is found, the second by the position of the whitespace ending it. -/
def nextPoi (s : Str) (start : Nat) : (Nat × Nat) × Nat :=
  let p1 := scanWhile s isSpaceC start
  if p1 < s.length then
    let p2 := scanWhile s (fun c => !isSpaceC c) p1
    ((p1, p2), p2)
  else ((s.length + 1, s.length), s.length)

/-- `String::End()` (string.h:103-104). -/
def strEnd (s : Str) : Nat := s.length + 1

/-! ## Reserved-character policy (`argument_parser.h`, struct `Reserved`) -/

/-- `Reserved::IsEscapeChar` (argument_parser.h:37-38). -/
def isEscapeChar (c : Char) : Bool := c = '\\'

/-- `Reserved::IsReservedChar` (argument_parser.h:48-52): member of
`s_Reserved = "\\[]\""`. -/
def isReservedChar (c : Char) : Bool :=
  c = '\\' || c = '[' || c = ']' || c = '"'

/-- `Reserved::IsEscaping` (argument_parser.h:64-67).  The C++ guard is
`pos < input.size() - 1` over `size_t`; for an empty string the guard is
trivially true by unsigned wrap-around and the accesses are undefined
behaviour, which the model renders harmless through truncated `Nat`
subtraction. -/
def isEscaping (s : Str) (pos : Nat) : Bool :=
  decide (pos < s.length - 1) && isEscapeChar (chAt s pos) && isReservedChar (chAt s (pos + 1))

/-- The loop body of `Reserved::IsEscaped` (argument_parser.h:79-91):
walk `i` downward from `pos`, toggling `result` while the character at
`i` is reserved and the one before it is the escape marker. -/
def isEscapedAux (s : Str) : Nat → Bool → Bool
  | 0, result => result
  | i + 1, result =>
    if isReservedChar (chAt s (i + 1)) && isEscapeChar (chAt s i)
    then isEscapedAux s i (!result)
    else result

/-- `Reserved::IsEscaped` (argument_parser.h:79-91). -/
def isEscaped (s : Str) (pos : Nat) : Bool := isEscapedAux s pos false

/-- Specification-side quantity, written from the claim's wording rather
than the code, for comparison with `isEscaped`: the length of the
maximal run of consecutive escape markers immediately preceding
position `pos`. -/
def specEscapeRun (s : Str) : Nat → Nat
  | 0 => 0
  | pos + 1 => if isEscapeChar (chAt s pos) then specEscapeRun s pos + 1 else 0

/-! ## Argument parsers (`argument_parser.h`)

Every parser is modelled with the uniform shape
`Str → Nat → (Except CsysErr α) × Str × Nat`: the result (or the
`csys::Exception` carrying a message and the offending substring), the
buffer after the call (C++ mutates `input.m_String` in place and the
mutations survive a throw) and the final value of the caller's
`size_t &start`. -/

/-- `csys::Exception` and the non-csys escapes the model must name:
`stdExc` marks the place where the numeric catch handler itself throws
`std::out_of_range` (substring start past the end), `fuelExc` is a
model-only marker for loop fuel exhaustion (unreachable on the inputs
evaluated here). -/
inductive CsysErr where
  | exc (msg : String) (arg : Str)
  | stdExc
  | fuelExc
deriving DecidableEq, Repr

/-- `str.substr(a, b - a)` — the `ARG_PARSE_SUBSTR(range)` expansion. -/
def substrOf (s : Str) (a b : Nat) : Str := (s.drop a).take (b - a)

/-- `str.substr(a, cnt)` with the count clamped to the remaining length,
as `std::string::substr` specifies. -/
def substrCnt (s : Str) (a cnt : Nat) : Str := (s.drop a).take cnt

/-- `s_ErrMsgReserved` (argument_parser.h:20). -/
def errMsgReserved : String := "Reserved chars '\\, [, ], \"' must be escaped with \\"

/-- The `GetWord` lambda of the `csys::String` parser
(argument_parser.h:175-200), scanning `[i, e)`: plain characters are
copied, an escaping backslash copies the next character and skips it,
any other reserved character raises `s_ErrMsgReserved` with
`str.substr(a, e - a)` as the offending text. -/
def getWordAux (s : Str) (a e : Nat) (i : Nat) : Except CsysErr Str :=
  if _h : i < e then
    if isReservedChar (chAt s i) = false then
      match getWordAux s a e (i + 1) with
      | .ok r => .ok (chAt s i :: r)
      | .error er => .error er
    else if isEscapeChar (chAt s i) && isEscaping s i then
      match getWordAux s a e (i + 2) with
      | .ok r => .ok (chAt s (i + 1) :: r)
      | .error er => .error er
    else .error (.exc errMsgReserved (substrOf s a e))
  else .ok []
termination_by e - i

/-- `GetWord(str, a, e)`. -/
def getWord (s : Str) (a e : Nat) : Except CsysErr Str := getWordAux s a e a

/-- The combined effect of `input.m_String.find('"', i)` plus the
skip-escaped loop (argument_parser.h:215-217): the first index at or
after `i` holding an unescaped quote.  (Skipped indices hold either a
non-quote or an escaped quote, so the fused single scan agrees with the
C++ two-level loop.) -/
def findUnescQuote (s : Str) (i : Nat) : Option Nat :=
  if h : i < s.length then
    if chAt s i = '"' && !isEscaped s i then some i
    else findUnescQuote s (i + 1)
  else none
termination_by s.length - i

/-- Same fusion for `find(']', i)` in the vector parser
(argument_parser.h:482-484). -/
def findUnescClose (s : Str) (i : Nat) : Option Nat :=
  if h : i < s.length then
    if chAt s i = ']' && !isEscaped s i then some i
    else findUnescClose s (i + 1)
  else none
termination_by s.length - i

/-- The `while (true)` segment loop of the `csys::String` parser
(argument_parser.h:212-242), entered with `first` just past an opening
quote.  Returns the accumulated text and the final `range.second` (the
closing quote of the last segment).  Each iteration strictly increases
`first`, bounded by the string length; the loop is modelled with fuel
`s.length + 2`, which that bound makes sufficient. -/
def strSegments (s : Str) : Nat → Nat → Except CsysErr (Str × Nat)
  | 0, _ => .error .fuelExc
  | fuel + 1, first =>
    match findUnescQuote s first with
    | none => .error (.exc "Could not find closing '\"'" (substrOf s first s.length))
    | some j =>
      match getWord s first j with
      | .error e => .error e
      | .ok w =>
        -- range.first = range.second + 1
        if j + 1 < s.length ∧ isSpaceC (chAt s (j + 1)) = false then
          if chAt s (j + 1) = '"' then
            -- two quoted segments glued together: skip the second quote
            match strSegments s fuel (j + 2) with
            | .ok (rest, sec) => .ok (w ++ rest, sec)
            | .error e => .error e
          else
            match strSegments s fuel (j + 1) with
            | .ok (rest, sec) => .ok (w ++ rest, sec)
            | .error e => .error e
        else .ok (w, j)

/-- `ArgumentParser<csys::String>` (argument_parser.h:170-247).  The
parser never writes to the buffer, so the returned buffer is the input
one.  `start` is advanced to `range.second` by `NextPoi` and to
`range.second + 1` on successful completion. -/
def stringParse (s : Str) (start : Nat) : (Except CsysErr Str) × Str × Nat :=
  let r := nextPoi s start
  let first := r.1.1
  let second := r.1.2
  if chAt s first ≠ '"' then
    match getWord s first second with
    | .ok w => (.ok w, s, second + 1)
    | .error e => (.error e, s, second)
  else
    match strSegments s (s.length + 2) (first + 1) with
    | .ok (w, sec) => (.ok w, s, sec + 1)
    | .error e => (.error e, s, second)

/-- The lowercase-and-compare loop of `ArgumentParser<bool>`
(argument_parser.h:270-272 and 279-281): for `i` in `[i, second)` the
buffer character is overwritten with its lowercase form and compared to
`target[i - first]`; a mismatch throws (flag `false`), leaving the
already-lowered characters in the buffer. -/
def boolCmpLoop (s : Str) (first second : Nat) (target : Str) (i : Nat) : Str × Bool :=
  if _h : i < second then
    let s2 := s.set i (toLowerC (chAt s i))
    if toLowerC (chAt s i) ≠ chAt target (i - first) then (s2, false)
    else boolCmpLoop s2 first second target (i + 1)
  else (s, true)
termination_by second - i

/-- `ArgumentParser<bool>` (argument_parser.h:253-287).  `NextPoi` sets
`start` to `range.second` before anything can throw, so the final cursor
is `range.second` on every path.  On the sentinel range the C++ write
`input.m_String[range.first] = ...` is out of bounds (UB); `List.set`
past the end is a no-op, and `range.second - range.first` underflows to
a huge `size_t` in C++ (hence neither 4 nor 5) just as truncated `Nat`
subtraction gives 0 here. -/
def boolParse (s : Str) (start : Nat) : (Except CsysErr Bool) × Str × Nat :=
  let r := nextPoi s start
  let first := r.1.1
  let second := r.1.2
  let s1 := s.set first (toLowerC (chAt s first))
  if second - first = 4 ∧ chAt s1 first = 't' then
    match boolCmpLoop s1 first second ['t', 'r', 'u', 'e'] (first + 1) with
    | (s2, true) => (.ok true, s2, second)
    | (s2, false) =>
      (.error (.exc "Missing or invalid boolean argument, expected true" (substrOf s2 first second)), s2, second)
  else if second - first = 5 ∧ chAt s1 first = 'f' then
    match boolCmpLoop s1 first second ['f', 'a', 'l', 's', 'e'] (first + 1) with
    | (s2, true) => (.ok false, s2, second)
    | (s2, false) =>
      (.error (.exc "Missing or invalid boolean argument, expected false" (substrOf s2 first second)), s2, second)
  else
    (.error (.exc "Missing or invalid boolean argument" (substrOf s1 first second)), s1, second)

/-! ## Numeric parsing (`ARG_PARSE_GENERAL_SPEC`, argument_parser.h:147-164)

The macro delegates to a standard conversion function.  `std::stoi` is
modelled from its standard-library contract (strtol in base 10 on an
LP64 platform): skip C-locale whitespace, accept one optional sign, then
a nonempty run of decimal digits; no digits means `std::invalid_argument`,
and a converted value outside `int`'s range means `std::out_of_range`
(raised either by strtol at `long`'s bounds or by stoi's own `int`
range check — together exactly the `int` bounds). -/

/-- Outcome classification of the delegated standard conversion. -/
inductive ConvErr where
  | invalid
  | outOfRange
deriving DecidableEq, Repr

/-- The exact mathematical value of a decimal digit string, most
significant digit first. -/
def decValue (ds : Str) : Int :=
  ds.foldl (fun a ch => a * 10 + ((ch.toNat : Int) - 48)) 0

/-- The `strtol` scan underlying `std::stoi`: `none` when no digits could
be consumed, otherwise the exact mathematical value of the consumed
initial numeral (skipped whitespace, one optional sign, longest digit
run).  Reading one character past the scanned material mirrors `*p` on
the NUL-terminated C string (`headD` with NUL default). -/
def strtolScan (tok : Str) : Option Int :=
  let t1 := tok.dropWhile isSpaceC
  let sgn : Int := if t1.headD (Char.ofNat 0) = '-' then -1 else 1
  let t2 := if t1.headD (Char.ofNat 0) = '-' ∨ t1.headD (Char.ofNat 0) = '+'
            then t1.tail else t1
  let ds := t2.takeWhile Char.isDigit
  if ds = [] then none
  else some (sgn * decValue ds)

/-- `std::stoi`: the scanned value when it fits in a 32-bit `int`,
`out_of_range` when it does not, `invalid_argument` when nothing was
consumed. -/
def stoiModel (tok : Str) : Except ConvErr Int :=
  match strtolScan tok with
  | none => .error .invalid
  | some v => if v < -(2 ^ 31) ∨ 2 ^ 31 - 1 < v then .error .outOfRange else .ok v

/-- The C cast `(short)v` for an in-`int`-range value: two's-complement
truncation to 16 bits. -/
def toShortCast (v : Int) : Int := (v + 2 ^ 15) % 2 ^ 16 - 2 ^ 15

/-- `ArgumentParser<short>` = `ARG_PARSE_GENERAL_SPEC(short, "signed
short", std::stoi)` (argument_parser.h:147-164, 355).  The buffer is
never written.  On the sentinel range `ARG_PARSE_SUBSTR` itself throws
`std::out_of_range`, which the catch handler turns into a second
`std::out_of_range` thrown while building the `Exception` — a non-csys
escape, modelled as `stdExc`.  Note that the offending-substring in the
catch handlers is `substr(range.first, range.second)` — a count, not an
end position. -/
def shortParse (s : Str) (start : Nat) : (Except CsysErr Int) × Str × Nat :=
  let r := nextPoi s start
  let first := r.1.1
  let second := r.1.2
  if first = s.length + 1 then (.error .stdExc, s, second)
  else
    match stoiModel (substrOf s first second) with
    | .ok v => (.ok (toShortCast v), s, second)
    | .error .outOfRange =>
      (.error (.exc "Argument too large for signed short" (substrCnt s first second)), s, second)
    | .error .invalid =>
      (.error (.exc "Missing or invalid signed short argument" (substrCnt s first second)), s, second)

/-! ## Vector parsing (`ArgumentParser<std::vector<T>>`, argument_parser.h:450-513)

The element parser is a parameter with the same uniform shape, so the
vector parser is stated once for every element type `T`.  The two
`while (true)` loops are modelled with fuel; every loop path either
returns or strictly advances through the buffer, so any fuel larger than
the buffer length is enough, and the claims below hold for arbitrary
fuel values where stated. -/

/-- One element parser: value, buffer after the call, final cursor. -/
abbrev ElemP (α : Type) := Str → Nat → (Except CsysErr α) × Str × Nat

/-- The inner element loop (argument_parser.h:498-510): state is the
buffer, the caller's `start` (used as the element parse position), the
scan position `range.first` and the fixed `range.second` (the blanked
`]`).  On exit `start = range.first`, the first token position at or
beyond `range.second`. -/
def vecInner {α : Type} (p : ElemP α) : Nat → Str → Nat → Nat → Nat → List α →
    (Except CsysErr (List α)) × Str × Nat
  | 0, s, start, _, _, _ => (.error .fuelExc, s, start)
  | fuel + 1, s, start, rfirst, rsecond, acc =>
    let nf := (nextPoi s rfirst).1.1
    if rsecond ≤ nf then (.ok acc, s, nf)
    else
      match p s start with
      | (.ok v, s2, start2) => vecInner p fuel s2 start2 start2 rsecond (acc ++ [v])
      | (.error e, s2, start2) => (.error e, s2, start2)

/-- The outer loop (argument_parser.h:468-512): `start` here is the
caller's `start` variable, which the outer loop leaves untouched (it was
set to the second component of the very first `NextPoi`). -/
def vecOuter {α : Type} (p : ElemP α) : Nat → Str → Nat → Nat → List α →
    (Except CsysErr (List α)) × Str × Nat
  | 0, s, _, start, _ => (.error .fuelExc, s, start)
  | fuel + 1, s, rfirst, start, acc =>
    let r := nextPoi s rfirst
    let first := r.1.1
    if first = s.length + 1 then (.ok acc, s, start)
    else if chAt s first = '[' then
      -- nested vector element, parsed with `range.first` as its cursor
      match p s first with
      | (.ok v, s2, c2) => vecOuter p fuel s2 c2 start (acc ++ [v])
      | (.error e, s2, _) => (.error e, s2, start)
    else
      match findUnescClose s first with
      | none =>
        (.error (.exc "Invalid vector argument missing closing ]" (substrOf s first s.length)), s, start)
      | some j =>
        vecInner p fuel (s.set j ' ') first first j acc

/-- `ArgumentParser<std::vector<T>>::ArgumentParser`
(argument_parser.h:451-513). -/
def vecParse {α : Type} (p : ElemP α) (fuel : Nat) (s : Str) (start : Nat) :
    (Except CsysErr (List α)) × Str × Nat :=
  let r := nextPoi s start
  let first := r.1.1
  let second := r.1.2
  if first = s.length + 1 then (.ok [], s, second)
  else if chAt s first ≠ '[' then
    (.error (.exc "Invalid vector argument missing opening [" (substrOf s first second)), s, second)
  else vecOuter p fuel (s.set first ' ') first second []

/-- `Arg<T>::Parse` (arguments.h:69-79): before invoking the argument
parser it probes (with a copy of the cursor) whether any token remains,
and throws `"Not enough arguments were given"` with the whole buffer as
the offending text if not. -/
def argParse {α : Type} (p : ElemP α) (s : Str) (start : Nat) :
    (Except CsysErr α) × Str × Nat :=
  if (nextPoi s start).1.1 = strEnd s then
    (.error (.exc "Not enough arguments were given" s), s, start)
  else p s start

/-- The frame relation the vector parser maintains on the buffer: same
length, and every changed position originally held a bracket delimiter
and now holds the filler space. -/
def bufEvolve (s t : Str) : Prop :=
  t.length = s.length
  ∧ ∀ i, i < s.length →
      chAt t i = chAt s i
      ∨ ((chAt s i = '[' ∨ chAt s i = ']') ∧ chAt t i = ' ')

/-! ## Theorems: autocomplete index -/

/-- Searching for the empty word always fails: the NUL head compares less
at every node, so the walk slides down the `less` spine to `nullptr`. -/
theorem TST.search_nil (t : TST) : t.search [] = false := by
  induction t with
  | leaf => rfl
  | node l d iw e g ihl ihe ihg => simpa [TST.search] using ihl

/-- No word is found in an unmarked childless node. -/
theorem TST.search_orphan (d : Char) (v : Str) :
    TST.search (.node .leaf d false .leaf .leaf) v = false := by
  cases v with
  | nil => rfl
  | cons c cs => simp [TST.search]

/-- Full behaviour of one `RemoveAux` call on an arbitrary tree: searches
for words other than the removed one are untouched, the removed word is
gone, and whenever the call reports `true` the resulting subtree is a
single unmarked childless node (the shape the caller is about to
`delete`). -/
theorem TST.removeAux_spec (t : TST) : ∀ w : Str,
    (∀ v, v ≠ w → (t.removeAux w).1.search v = t.search v)
    ∧ (t.removeAux w).1.search w = false
    ∧ ((t.removeAux w).2 = true →
        ∃ d, (t.removeAux w).1 = .node .leaf d false .leaf .leaf) := by
  induction t with
  | leaf =>
    intro w
    exact ⟨fun v _ => rfl, rfl, by simp [TST.removeAux]⟩
  | node l d iw e g ihl ihe ihg =>
    intro w
    match w with
    | [] =>
      refine ⟨?_, ?_, by simp [TST.removeAux]⟩
      · intro v hv
        cases v with
        | nil => exact absurd rfl hv
        | cons x xs =>
          simp only [TST.removeAux, TST.search]
          split_ifs <;> first | rfl | exact (ihl []).1 (x :: xs) (by simp)
      · simp only [TST.removeAux, TST.search]
        exact (ihl []).2.1
    | [c] =>
      rcases lt_trichotomy c d with hcd | hcd | hcd
      · -- head below the node: descend `less`, flag dropped
        have hne : c ≠ d := ne_of_lt hcd
        refine ⟨?_, ?_, ?_⟩
        · intro v hv
          cases v with
          | nil =>
            simp only [TST.removeAux, if_neg hne, if_pos hcd, TST.search]
            exact (ihl [c]).1 [] (by simp)
          | cons x xs =>
            simp only [TST.removeAux, if_neg hne, if_pos hcd, TST.search]
            split_ifs <;> first | rfl | exact (ihl [c]).1 (x :: xs) hv
        · simp only [TST.removeAux, if_neg hne, if_pos hcd, TST.search, if_pos hcd]
          exact (ihl [c]).2.1
        · simp [TST.removeAux, if_neg hne, if_pos hcd]
      · -- terminal node reached: unmark if marked
        subst hcd
        cases iw with
        | true =>
          have hre : TST.removeAux (TST.node l c true e g) [c]
              = (TST.node l c false e g,
                 decide (e = TST.leaf ∧ l = TST.leaf ∧ g = TST.leaf)) := by
            simp [TST.removeAux]
          refine ⟨?_, ?_, ?_⟩
          · intro v hv
            rw [hre]
            cases v with
            | nil => simp [TST.search]
            | cons x xs =>
              by_cases h1 : x < c
              · simp [TST.search, h1]
              · by_cases h2 : c < x
                · simp [TST.search, h1, h2]
                · have hx : x = c := le_antisymm (not_lt.mp h2) (not_lt.mp h1)
                  rcases xs with _ | ⟨y, ys⟩
                  · exact absurd (by rw [hx]) hv
                  · simp [TST.search, h1, h2]
          · rw [hre]
            simp [TST.search, TST.search_nil]
          · rw [hre]
            intro hflag
            rcases decide_eq_true_eq.mp hflag with ⟨he, hl, hg⟩
            exact ⟨c, by simp [he, hl, hg]⟩
        | false =>
          refine ⟨?_, ?_, ?_⟩
          · intro v hv
            simp [TST.removeAux]
          · simp [TST.removeAux, TST.search, TST.search_nil]
          · simp [TST.removeAux]
      · -- head above the node: descend `greater`, flag dropped
        have hne : c ≠ d := ne_of_gt hcd
        have hnlt : ¬ c < d := not_lt.mpr (le_of_lt hcd)
        refine ⟨?_, ?_, ?_⟩
        · intro v hv
          cases v with
          | nil =>
            simp only [TST.removeAux, if_neg hne, if_neg hnlt, TST.search]
          | cons x xs =>
            simp only [TST.removeAux, if_neg hne, if_neg hnlt, TST.search]
            split_ifs <;> first | rfl | exact (ihg [c]).1 (x :: xs) hv
        · simp only [TST.removeAux, if_neg hne, if_neg hnlt, TST.search,
            if_neg hnlt, if_pos hcd]
          exact (ihg [c]).2.1
        · simp [TST.removeAux, if_neg hne, if_neg hnlt]
    | c :: c2 :: cs =>
      rcases lt_trichotomy c d with hcd | hcd | hcd
      · have hngt : ¬ d < c := not_lt.mpr (le_of_lt hcd)
        refine ⟨?_, ?_, ?_⟩
        · intro v hv
          cases v with
          | nil =>
            simp only [TST.removeAux, if_pos hcd, TST.search]
            exact (ihl (c :: c2 :: cs)).1 [] (by simp)
          | cons x xs =>
            simp only [TST.removeAux, if_pos hcd, TST.search]
            split_ifs <;> first | rfl | exact (ihl (c :: c2 :: cs)).1 (x :: xs) hv
        · simp only [TST.removeAux, if_pos hcd, TST.search, if_pos hcd]
          exact (ihl (c :: c2 :: cs)).2.1
        · simp [TST.removeAux, if_pos hcd]
      · -- equal: recurse through the `equal` child with the word tail
        subst hcd
        have hnlt : ¬ c < c := lt_irrefl c
        rcases hee : TST.removeAux e (c2 :: cs) with ⟨e2, flag⟩
        have hfst : (TST.removeAux e (c2 :: cs)).1 = e2 := by rw [hee]
        cases flag with
        | true =>
          obtain ⟨d2, he2⟩ := (ihe (c2 :: cs)).2.2 (by rw [hee])
          rw [hfst] at he2
          have hegone : ∀ xs, xs ≠ c2 :: cs → e.search xs = false := by
            intro xs hxs
            have h1 := (ihe (c2 :: cs)).1 xs hxs
            rw [hfst, he2, TST.search_orphan] at h1
            exact h1.symm
          refine ⟨?_, ?_, ?_⟩
          · intro v hv
            cases v with
            | nil => simp only [TST.removeAux, if_neg hnlt, hee, TST.search]
            | cons x xs =>
              simp only [TST.removeAux, if_neg hnlt, hee]
              by_cases h1 : x < c
              · simp [TST.search, h1]
              · by_cases h2 : c < x
                · simp [TST.search, h1, h2]
                · have hx : x = c := le_antisymm (not_lt.mp h2) (not_lt.mp h1)
                  have hxs : xs ≠ c2 :: cs := fun hh => hv (by rw [hx, hh])
                  by_cases h3 : xs = [] ∧ iw = true
                  · simp [TST.search, h1, h2, h3]
                  · simp only [TST.search, if_neg h1, if_neg h2, if_neg h3]
                    rw [hegone xs hxs]
          · simp only [TST.removeAux, if_neg hnlt, hee]
            simp [TST.search]
          · intro hflag
            simp only [TST.removeAux, if_neg hnlt, hee, decide_eq_true_eq] at hflag
            rcases hflag with ⟨hw, hl, hg⟩
            exact ⟨c, by simp [TST.removeAux, if_neg hnlt, hee, hw, hl, hg]⟩
        | false =>
          refine ⟨?_, ?_, ?_⟩
          · intro v hv
            cases v with
            | nil => simp only [TST.removeAux, if_neg hnlt, hee, TST.search]
            | cons x xs =>
              simp only [TST.removeAux, if_neg hnlt, hee]
              by_cases h1 : x < c
              · simp [TST.search, h1]
              · by_cases h2 : c < x
                · simp [TST.search, h1, h2]
                · have hx : x = c := le_antisymm (not_lt.mp h2) (not_lt.mp h1)
                  have hxs : xs ≠ c2 :: cs := fun hh => hv (by rw [hx, hh])
                  have h4 := (ihe (c2 :: cs)).1 xs hxs
                  rw [hfst] at h4
                  simp only [TST.search, if_neg h1, if_neg h2]
                  split_ifs <;> first | rfl | exact h4
          · simp only [TST.removeAux, if_neg hnlt, hee]
            have h4 := (ihe (c2 :: cs)).2.1
            rw [hfst] at h4
            simpa [TST.search] using h4
          · simp [TST.removeAux, if_neg hnlt, hee]
      · have hnlt : ¬ c < d := not_lt.mpr (le_of_lt hcd)
        refine ⟨?_, ?_, ?_⟩
        · intro v hv
          cases v with
          | nil => simp only [TST.removeAux, if_neg hnlt, if_pos hcd, TST.search]
          | cons x xs =>
            simp only [TST.removeAux, if_neg hnlt, if_pos hcd, TST.search]
            split_ifs <;> first | rfl | exact (ihg (c :: c2 :: cs)).1 (x :: xs) hv
        · simp only [TST.removeAux, if_neg hnlt, if_pos hcd, TST.search,
            if_neg hnlt, if_pos hcd]
          exact (ihg (c :: c2 :: cs)).2.1
        · simp [TST.removeAux, if_neg hnlt, if_pos hcd]

/-- C3: for every non-empty word `w` and every prior tree (in particular
any tree built from previously inserted words), after `Insert(w)` and
`Remove(w)` the word `w` is no longer found, and `Search` of any other
word `v` gives the same answer as just before the `Remove`. -/
theorem C3_insert_remove_search (t : TST) (w v : Str) (hw : w ≠ []) (hv : v ≠ w) :
    ((t.insert w).removeAux w).1.search w = false
    ∧ ((t.insert w).removeAux w).1.search v = (t.insert w).search v :=
  ⟨(TST.removeAux_spec (t.insert w) w).2.1,
   (TST.removeAux_spec (t.insert w) w).1 v hv⟩

/-- Witness for C3 at a concrete instance. -/
theorem C3_insert_remove_search_witness :
    ((TST.leaf.insert ['a']).removeAux ['a']).1.search ['a'] = false
    ∧ ((TST.leaf.insert ['a']).removeAux ['a']).1.search ['b']
        = (TST.leaf.insert ['a']).search ['b'] :=
  C3_insert_remove_search TST.leaf ['a'] ['b'] (by decide) (by decide)

/-- C1 (code bug): evaluating the code at the failing input.  Inserting
"a" into a fresh index and then removing it leaves `m_Count = 1`
(`Remove` never decrements the counter) although no word is marked in
the tree any more and the word is no longer found. -/
theorem C1_remove_keeps_count :
    ((AC.empty.insert ['a']).remove ['a']).count = 1
    ∧ ((AC.empty.insert ['a']).remove ['a']).root.wordCount = 0
    ∧ ((AC.empty.insert ['a']).remove ['a']).root.search ['a'] = false := by
  simp [AC.empty, AC.insert, AC.remove, TST.insert, TST.preMarked, TST.removeAux,
    TST.wordCount, TST.search]

/-- The tree obtained by inserting "set", "setx", "sett" into a fresh
index, in the order named by C2. -/
def tSet : TST :=
  ((TST.leaf.insert ['s', 'e', 't']).insert ['s', 'e', 't', 'x']).insert ['s', 'e', 't', 't']

/-- C2 (counterexample): partial completion of "s" over
{"set","setx","sett"} extends the query to "set", not to "se": the
completion walk stops only at a node that itself has a `less`/`greater`
child or no `equal` child, and the branch between "sett" and "setx" sits
below the node of the third character. -/
theorem C2_counterexample :
    (TST.suggestions tSet ['s'] true).1 = ['s', 'e', 't']
    ∧ (TST.suggestions tSet ['s'] true).1 ≠ ['s', 'e'] := by
  simp [tSet, TST.insert, TST.suggestions, TST.findNode, TST.chain]

/-- C2 (amended): suggestions for "se" are exactly {"set","setx","sett"}
in some order, and partial completion of "s" extends the query to "set"
(all characters common to every completion). -/
theorem C2_amended :
    (TST.suggestions tSet ['s', 'e'] true).2.Perm
        [['s', 'e', 't'], ['s', 'e', 't', 'x'], ['s', 'e', 't', 't']]
    ∧ (TST.suggestions tSet ['s'] true).1 = ['s', 'e', 't'] := by
  constructor
  · have hv : (TST.suggestions tSet ['s', 'e'] true).2
        = [['s', 'e', 't'], ['s', 'e', 't', 't'], ['s', 'e', 't', 'x']] := by
      simp [tSet, TST.insert, TST.suggestions, TST.findNode, TST.chain, TST.suggestionsAux]
    rw [hv]
    decide
  · simp [tSet, TST.insert, TST.suggestions, TST.findNode, TST.chain]

/-- C10: when the descent for the query ends at a node marked as a word,
`Suggestions(prefix, options, partial_complete = true)` still extends the
caller's query with the unbranching chain below that node before the
is-already-a-word early return fires, and the returned option list is
empty. -/
theorem C10_word_query_still_extended (t : TST) (pfx : Str) (l e g : TST) (d : Char)
    (hfind : TST.findNode t pfx = some (TST.node l d true e g))
    (hchain : TST.chain e ≠ []) :
    TST.suggestions t pfx true = (pfx ++ TST.chain e, []) := by
  simp [TST.suggestions, hfind]

/-- Witness for C10: words "ab" and "abcd"; querying "ab" extends the
prefix to "abc" and returns no options. -/
theorem C10_word_query_still_extended_witness :
    TST.suggestions ((TST.leaf.insert ['a', 'b']).insert ['a', 'b', 'c', 'd'])
        ['a', 'b'] true = (['a', 'b', 'c'], []) := by
  have h := C10_word_query_still_extended
    ((TST.leaf.insert ['a', 'b']).insert ['a', 'b', 'c', 'd']) ['a', 'b']
    TST.leaf
    (TST.node TST.leaf 'c' false (TST.node TST.leaf 'd' true TST.leaf TST.leaf) TST.leaf)
    TST.leaf 'b' (by simp [TST.insert, TST.findNode]) (by decide)
  exact h.trans (by decide)

/-! ## Theorems: reserved-character policy -/

/-- The escape marker is itself reserved, which keeps the backward scan
of `IsEscaped` alive across a run of escape markers. -/
theorem isReservedChar_of_escape {c : Char} (h : isEscapeChar c = true) :
    isReservedChar c = true := by
  simp only [isEscapeChar, decide_eq_true_eq] at h
  simp [isReservedChar, h]

/-- Characterization of the `IsEscaped` loop: when the character at `pos`
is reserved, the loop toggles its accumulator once per escape marker in
the maximal run immediately preceding `pos`. -/
theorem isEscapedAux_parity (s : Str) :
    ∀ pos r, isReservedChar (chAt s pos) = true →
      isEscapedAux s pos r = xor r (decide (specEscapeRun s pos % 2 = 1)) := by
  intro pos
  induction pos with
  | zero => intro r _; simp [isEscapedAux, specEscapeRun]
  | succ pos ih =>
    intro r hres
    by_cases hesc : isEscapeChar (chAt s pos) = true
    · have hres2 : isReservedChar (chAt s pos) = true := isReservedChar_of_escape hesc
      have hstep : isEscapedAux s (pos + 1) r = isEscapedAux s pos (!r) := by
        simp [isEscapedAux, hres, hesc]
      rw [hstep, ih (!r) hres2]
      have hrun : specEscapeRun s (pos + 1) = specEscapeRun s pos + 1 := by
        simp [specEscapeRun, hesc]
      rw [hrun]
      rcases Nat.mod_two_eq_zero_or_one (specEscapeRun s pos) with h2 | h2
      · have h4 : (specEscapeRun s pos + 1) % 2 = 1 := by omega
        rw [h2, h4]
        cases r <;> simp
      · have h4 : (specEscapeRun s pos + 1) % 2 = 0 := by omega
        rw [h2, h4]
        cases r <;> simp
    · have hstep : isEscapedAux s (pos + 1) r = r := by
        simp only [isEscapedAux]
        rw [if_neg]
        simp [hesc]
      have hrun : specEscapeRun s (pos + 1) = 0 := by
        simp [specEscapeRun, hesc]
      simp [hstep, hrun]

/-- C9: for a reserved character at `pos`, `IsEscaped(buf, pos)` is true
exactly when the maximal run of escape markers immediately preceding
`pos` has odd length (an escaped escape marker does not escape the
character after it); for a non-reserved character it is false.  The
function is modelled as a pure function: it only reads the buffer. -/
theorem C9_isEscaped_parity (s : Str) (pos : Nat) :
    (isReservedChar (chAt s pos) = false → isEscaped s pos = false)
    ∧ (isReservedChar (chAt s pos) = true →
        (isEscaped s pos = true ↔ specEscapeRun s pos % 2 = 1)) := by
  constructor
  · intro h
    cases pos with
    | zero => rfl
    | succ p =>
      simp only [isEscaped, isEscapedAux]
      rw [if_neg]
      simp [h]
  · intro h
    rw [isEscaped, isEscapedAux_parity s pos false h]
    simp

/-- Witness for C9: in the buffer `\"` the quote at position 1 is
preceded by a run of exactly one escape marker and is escaped. -/
theorem C9_isEscaped_parity_witness :
    (isEscaped ['\\', '"'] 1 = true ↔ specEscapeRun ['\\', '"'] 1 % 2 = 1)
    ∧ isReservedChar (chAt ['\\', '"'] 1) = true ∧ isEscaped ['\\', '"'] 1 = true :=
  ⟨(C9_isEscaped_parity ['\\', '"'] 1).2 (by decide), by decide, by decide⟩

/-! ## Theorems: string argument parsing -/

/-- C8: parsing the token `"a\"b"` (opening quote, `a`, escaped quote,
`b`, closing quote) as a `csys::String` argument succeeds with the
literal text `a"b` — the escape marker is gone from the value — leaves
the buffer untouched and advances the cursor past the closing quote. -/
theorem C8_escaped_quote_string :
    stringParse ['"', 'a', '\\', '"', 'b', '"'] 0
      = (.ok ['a', '"', 'b'], ['"', 'a', '\\', '"', 'b', '"'], 6) := by
  simp [stringParse, nextPoi, scanWhile, chAt, isSpaceC, getWord, getWordAux,
    findUnescQuote, isEscaped, isEscapedAux, isReservedChar, isEscapeChar, isEscaping,
    strSegments, substrOf]

/-! ## Theorems: numeric argument parsing -/

/-- C4 (counterexample): the token `40000` lies outside the range of
`short` (max 32767), yet `ArgumentParser<short>` raises no error: the
delegate `std::stoi` succeeds (40000 fits in `int`) and the cast
truncates the value to -25536. -/
theorem C4_counterexample :
    shortParse ['4', '0', '0', '0', '0'] 0
        = (.ok (-25536), ['4', '0', '0', '0', '0'], 5)
    ∧ ¬ ((-(2 ^ 15) : Int) ≤ 40000 ∧ (40000 : Int) ≤ 2 ^ 15 - 1) := by
  constructor
  · simp [shortParse, nextPoi, scanWhile, chAt, isSpaceC, stoiModel, strtolScan,
      decValue, substrOf, toShortCast]
  · decide

/-! ## Theorems: tokenizer -/
theorem scanWhile_step (s : Str) (p : Char → Bool) (pos : Nat) (h : pos < s.length)
    (hp : p (chAt s pos) = true) : scanWhile s p pos = scanWhile s p (pos + 1) := by
  rw [scanWhile.eq_def, dif_pos h, if_pos hp]

theorem scanWhile_halt (s : Str) (p : Char → Bool) (pos : Nat) (h : pos < s.length)
    (hp : p (chAt s pos) = false) : scanWhile s p pos = pos := by
  rw [scanWhile.eq_def, dif_pos h, if_neg]
  simp [hp]

theorem scanWhile_beyond (s : Str) (p : Char → Bool) (pos : Nat) (h : ¬ pos < s.length) :
    scanWhile s p pos = pos := by
  rw [scanWhile.eq_def, dif_neg h]

theorem scanWhile_ge (s : Str) (p : Char → Bool) (pos : Nat) : pos ≤ scanWhile s p pos := by
  induction pos using scanWhile.induct s p with
  | case1 x hx hp ih =>
    rw [scanWhile_step s p x hx hp]
    exact le_trans (Nat.le_succ x) ih
  | case2 x hx hp =>
    rw [scanWhile_halt s p x hx (by simpa using hp)]
  | case3 x hx =>
    rw [scanWhile_beyond s p x hx]

theorem scanWhile_le_len (s : Str) (p : Char → Bool) (pos : Nat) (h : pos ≤ s.length) :
    scanWhile s p pos ≤ s.length := by
  induction pos using scanWhile.induct s p with
  | case1 x hx hp ih =>
    rw [scanWhile_step s p x hx hp]
    exact ih hx
  | case2 x hx hp => rw [scanWhile_halt s p x hx (by simpa using hp)]; exact h
  | case3 x hx => rw [scanWhile_beyond s p x hx]; exact h

theorem scanWhile_skipped (s : Str) (p : Char → Bool) (pos : Nat) :
    ∀ i, pos ≤ i → i < scanWhile s p pos → p (chAt s i) = true := by
  induction pos using scanWhile.induct s p with
  | case1 x hx hp ih =>
    intro i h1 h2
    rcases eq_or_lt_of_le h1 with h3 | h3
    · rw [← h3]; exact hp
    · exact ih i h3 (by rwa [← scanWhile_step s p x hx hp])
  | case2 x hx hp =>
    intro i h1 h2
    rw [scanWhile_halt s p x hx (by simpa using hp)] at h2
    omega
  | case3 x hx =>
    intro i h1 h2
    rw [scanWhile_beyond s p x hx] at h2
    omega

theorem scanWhile_stop (s : Str) (p : Char → Bool) (pos : Nat)
    (h : scanWhile s p pos < s.length) : p (chAt s (scanWhile s p pos)) = false := by
  induction pos using scanWhile.induct s p with
  | case1 x hx hp ih =>
    rw [scanWhile_step s p x hx hp] at h ⊢
    exact ih h
  | case2 x hx hp =>
    rw [scanWhile_halt s p x hx (by simpa using hp)] at h ⊢
    simpa using hp
  | case3 x hx =>
    rw [scanWhile_beyond s p x hx] at h
    exact absurd h hx

theorem C6_amended (s : Str) (start a b c : Nat)
    (h : nextPoi s start = ((a, b), c)) :
    c = b
    ∧ (a = s.length + 1 ↔ ∀ i, start ≤ i → i < s.length → isSpaceC (chAt s i) = true)
    ∧ (a = s.length + 1 → b = s.length)
    ∧ (a ≠ s.length + 1 →
        start ≤ a ∧ a < b ∧ b ≤ s.length
        ∧ (∀ i, start ≤ i → i < a → isSpaceC (chAt s i) = true)
        ∧ (∀ i, a ≤ i → i < b → isSpaceC (chAt s i) = false)
        ∧ (b < s.length → isSpaceC (chAt s b) = true)) := by
  unfold nextPoi at h
  by_cases hp1 : scanWhile s isSpaceC start < s.length
  · rw [if_pos hp1] at h
    obtain ⟨⟨ha, hb⟩, hc⟩ :
        (scanWhile s isSpaceC start = a
          ∧ scanWhile s (fun ch => !isSpaceC ch) (scanWhile s isSpaceC start) = b)
        ∧ scanWhile s (fun ch => !isSpaceC ch) (scanWhile s isSpaceC start) = c := by
      simpa [Prod.ext_iff] using h
    have hstop : isSpaceC (chAt s (scanWhile s isSpaceC start)) = false :=
      scanWhile_stop s isSpaceC start hp1
    subst ha; subst hb; subst hc
    refine ⟨rfl, ?_, ?_, ?_⟩
    · constructor
      · intro heq
        omega
      · intro hall
        have h2 := hall (scanWhile s isSpaceC start) (scanWhile_ge s isSpaceC start) hp1
        rw [hstop] at h2
        cases h2
    · intro heq
      exact absurd heq (by omega)
    · intro _
      refine ⟨scanWhile_ge s isSpaceC start, ?_, ?_, ?_, ?_, ?_⟩
      · have hstep := scanWhile_step s (fun ch => !isSpaceC ch) (scanWhile s isSpaceC start)
          hp1 (by simp [hstop])
        rw [hstep]
        have := scanWhile_ge s (fun ch => !isSpaceC ch) (scanWhile s isSpaceC start + 1)
        omega
      · exact scanWhile_le_len s _ _ (le_of_lt hp1)
      · exact fun i h1 h2 => scanWhile_skipped s isSpaceC start i h1 h2
      · intro i h1 h2
        have h3 := scanWhile_skipped s (fun ch => !isSpaceC ch)
          (scanWhile s isSpaceC start) i h1 h2
        simpa using h3
      · intro hblt
        have h3 := scanWhile_stop s (fun ch => !isSpaceC ch) (scanWhile s isSpaceC start) hblt
        simpa using h3
  · rw [if_neg hp1] at h
    obtain ⟨⟨ha, hb⟩, hc⟩ : (s.length + 1 = a ∧ s.length = b) ∧ s.length = c := by
      simpa [Prod.ext_iff] using h
    subst ha; subst hb; subst hc
    refine ⟨rfl, ?_, fun _ => rfl, fun hne => absurd rfl hne⟩
    constructor
    · intro _ i h1 h2
      exact scanWhile_skipped s isSpaceC start i h1 (lt_of_lt_of_le h2 (not_lt.mp hp1))
    · intro _
      rfl

theorem C6_amended_witness :
    let s : Str := [' ', 'a', 'b', ' ']
    (3 = 3)
    ∧ (1 = s.length + 1 ↔ ∀ i, 0 ≤ i → i < s.length → isSpaceC (chAt s i) = true)
    ∧ (1 = s.length + 1 → 3 = s.length)
    ∧ (1 ≠ s.length + 1 →
        0 ≤ 1 ∧ 1 < 3 ∧ 3 ≤ s.length
        ∧ (∀ i, 0 ≤ i → i < 1 → isSpaceC (chAt s i) = true)
        ∧ (∀ i, 1 ≤ i → i < 3 → isSpaceC (chAt s i) = false)
        ∧ (3 < s.length → isSpaceC (chAt s 3) = true)) :=
  C6_amended [' ', 'a', 'b', ' '] 0 1 3 3
    (by simp [nextPoi, scanWhile, chAt, isSpaceC])

theorem C6_counterexample :
    nextPoi ['a', 'b'] 2 = ((3, 2), 2)
    ∧ (nextPoi ['a', 'b'] 2).1.2 ≠ (['a', 'b'] : Str).length + 1 := by
  constructor
  · simp [nextPoi, scanWhile, chAt, isSpaceC]
  · simp [nextPoi, scanWhile, chAt, isSpaceC]

/-- A decimal digit is not a sign character and not C whitespace. -/
theorem digit_facts {ch : Char} (h : ch.isDigit = true) :
    ch ≠ '-' ∧ ch ≠ '+' ∧ isSpaceC ch = false := by
  refine ⟨fun heq => absurd (heq ▸ h) (by decide),
          fun heq => absurd (heq ▸ h) (by decide), ?_⟩
  cases hsp : isSpaceC ch with
  | false => rfl
  | true =>
    exfalso
    simp only [isSpaceC, Bool.or_eq_true, decide_eq_true_eq] at hsp
    rcases hsp with ((((h1 | h1) | h1) | h1) | h1) | h1 <;> subst h1 <;>
      exact absurd h (by decide)

/-- `strtolScan` on a clean decimal numeral (optional minus sign, then
only digits) yields exactly its signed decimal value. -/
theorem strtolScan_clean (neg : Bool) (ds : Str) (hds : ds ≠ [])
    (hdig : ∀ ch ∈ ds, ch.isDigit = true) :
    strtolScan (if neg then '-' :: ds else ds)
      = some ((if neg then -1 else 1) * decValue ds) := by
  have htake : ds.takeWhile Char.isDigit = ds := List.takeWhile_eq_self_iff.mpr hdig
  rcases ds with _ | ⟨d0, ds2⟩
  · exact absurd rfl hds
  · have hd0 := digit_facts (hdig d0 (by simp))
    cases neg with
    | true =>
      show strtolScan ('-' :: d0 :: ds2) = some (-1 * decValue (d0 :: ds2))
      simp only [strtolScan]
      rw [List.dropWhile_cons_of_neg (by decide)]
      simp [htake, hd0.1, hd0.2.1]
    | false =>
      show strtolScan (d0 :: ds2) = some (1 * decValue (d0 :: ds2))
      simp only [strtolScan]
      rw [List.dropWhile_cons_of_neg (by simp [hd0.2.2])]
      simp [htake, hd0.1, hd0.2.1]

theorem substrOf_past_end (s : Str) (b : Nat) : substrOf s (s.length + 1) b = [] := by
  have h : s.drop (s.length + 1) = [] := List.drop_eq_nil_of_le (by omega)
  simp [substrOf, h]

theorem C4_amended :
    (∀ (s : Str) (start : Nat) (neg : Bool) (ds : Str),
      ds ≠ [] → (∀ ch ∈ ds, ch.isDigit = true) →
      substrOf s (nextPoi s start).1.1 (nextPoi s start).1.2
          = (if neg then '-' :: ds else ds) →
      (((-(2 ^ 31) : Int) ≤ (if neg then -1 else 1) * decValue ds
          ∧ (if neg then -1 else 1) * decValue ds ≤ 2 ^ 31 - 1) →
        shortParse s start
          = (.ok (toShortCast ((if neg then -1 else 1) * decValue ds)), s,
             (nextPoi s start).1.2))
      ∧ (((if neg then -1 else 1) * decValue ds < -(2 ^ 31)
          ∨ (2 ^ 31 - 1 : Int) < (if neg then -1 else 1) * decValue ds) →
        shortParse s start
          = (.error (.exc "Argument too large for signed short"
              (substrCnt s (nextPoi s start).1.1 (nextPoi s start).1.2)), s,
             (nextPoi s start).1.2)))
    ∧ (∀ (s : Str) (start : Nat),
        (nextPoi s start).1.1 ≠ s.length + 1 →
        strtolScan (substrOf s (nextPoi s start).1.1 (nextPoi s start).1.2) = none →
        shortParse s start
          = (.error (.exc "Missing or invalid signed short argument"
              (substrCnt s (nextPoi s start).1.1 (nextPoi s start).1.2)), s,
             (nextPoi s start).1.2)) := by
  constructor
  · intro s start neg ds hds hdig htok
    have hfirst : (nextPoi s start).1.1 ≠ s.length + 1 := by
      intro h
      rw [h, substrOf_past_end] at htok
      cases neg <;> simp_all
    have hscan : strtolScan
        (substrOf s (nextPoi s start).1.1 (nextPoi s start).1.2)
        = some ((if neg then -1 else 1) * decValue ds) := by
      rw [htok]
      exact strtolScan_clean neg ds hds hdig
    constructor
    · intro hin
      simp only [shortParse, if_neg hfirst, stoiModel, hscan]
      rw [if_neg (by omega)]
    · intro hout
      simp only [shortParse, if_neg hfirst, stoiModel, hscan]
      rw [if_pos (by omega)]
  · intro s start hfirst hscan
    simp only [shortParse, if_neg hfirst, stoiModel, hscan]

/-- Witness: instantiation at the buffer "40000". -/
theorem C4_amended_witness :
    shortParse ['4', '0', '0', '0', '0'] 0
      = (.ok (toShortCast ((if false then -1 else 1)
            * decValue ['4', '0', '0', '0', '0'])), ['4', '0', '0', '0', '0'],
         (nextPoi ['4', '0', '0', '0', '0'] 0).1.2) :=
  (C4_amended.1 ['4', '0', '0', '0', '0'] 0 false ['4', '0', '0', '0', '0']
    (by decide) (by decide)
    (by simp [nextPoi, scanWhile, chAt, isSpaceC, substrOf])).1
    (by decide)

/-! ## Theorems: buffer frame effects -/

theorem chAt_set_self (s : Str) (i : Nat) (c : Char) (h : i < s.length) :
    chAt (s.set i c) i = c := by
  simp [chAt, List.getD, List.getElem?_set_eq_of_lt c h]

theorem chAt_set_other (s : Str) (i j : Nat) (c : Char) (h : j ≠ i) :
    chAt (s.set i c) j = chAt s j := by
  simp [chAt, List.getD, List.getElem?_set_ne (Ne.symm h)]

theorem bufEvolve_refl (s : Str) : bufEvolve s s :=
  ⟨rfl, fun _ _ => Or.inl rfl⟩

theorem bufEvolve_trans {s t u : Str} (h1 : bufEvolve s t) (h2 : bufEvolve t u) :
    bufEvolve s u := by
  refine ⟨h2.1.trans h1.1, fun i hi => ?_⟩
  have hit : i < t.length := h1.1 ▸ hi
  rcases h2.2 i hit with h3 | ⟨h3, h4⟩
  · rw [h3]
    exact h1.2 i hi
  · rcases h1.2 i hi with h5 | ⟨h5, h6⟩
    · rw [h5] at h3
      exact Or.inr ⟨h3, h4⟩
    · rw [h6] at h3
      rcases h3 with h3 | h3 <;> cases h3
  
theorem bufEvolve_set_blank (s : Str) (j : Nat)
    (hj : chAt s j = '[' ∨ chAt s j = ']') : bufEvolve s (s.set j ' ') := by
  refine ⟨by simp, fun i hi => ?_⟩
  by_cases hij : i = j
  · subst hij
    exact Or.inr ⟨hj, chAt_set_self s i ' ' hi⟩
  · exact Or.inl (chAt_set_other s j i ' ' hij)

theorem findUnescClose_char (s : Str) :
    ∀ i j, findUnescClose s i = some j → i ≤ j ∧ j < s.length ∧ chAt s j = ']' := by
  intro i
  induction i using findUnescClose.induct s with
  | case1 x hx hq =>
    intro j hj
    rw [findUnescClose.eq_def, dif_pos hx, if_pos hq] at hj
    obtain rfl : x = j := by simpa using hj
    refine ⟨le_refl x, hx, ?_⟩
    have := (Bool.and_eq_true _ _).mp hq
    simpa [chAt, List.getD, List.getElem?_eq_getElem hx] using this.1
  | case2 x hx hq ih =>
    intro j hj
    rw [findUnescClose.eq_def, dif_pos hx, if_neg hq] at hj
    obtain ⟨h1, h2, h3⟩ := ih j hj
    exact ⟨by omega, h2, h3⟩
  | case3 x hx =>
    intro j hj
    rw [findUnescClose.eq_def, dif_neg hx] at hj
    cases hj

theorem vecInner_frame {α : Type} (p : ElemP α)
    (hp : ∀ s i, bufEvolve s (p s i).2.1) :
    ∀ fuel s start rfirst rsecond acc,
      bufEvolve s (vecInner p fuel s start rfirst rsecond acc).2.1 := by
  intro fuel
  induction fuel with
  | zero => intro s start rfirst rsecond acc; exact bufEvolve_refl s
  | succ fuel ih =>
    intro s start rfirst rsecond acc
    simp only [vecInner]
    split_ifs
    · exact bufEvolve_refl s
    · rcases hps : p s start with ⟨res, s2, start2⟩
      have hev : bufEvolve s s2 := by
        have := hp s start
        rw [hps] at this
        exact this
      cases res with
      | ok v => exact bufEvolve_trans hev (ih s2 start2 start2 rsecond (acc ++ [v]))
      | error e => exact hev

theorem vecOuter_frame {α : Type} (p : ElemP α)
    (hp : ∀ s i, bufEvolve s (p s i).2.1) :
    ∀ fuel s rfirst start acc,
      bufEvolve s (vecOuter p fuel s rfirst start acc).2.1 := by
  intro fuel
  induction fuel with
  | zero => intro s rfirst start acc; exact bufEvolve_refl s
  | succ fuel ih =>
    intro s rfirst start acc
    simp only [vecOuter]
    split_ifs with h1 h2
    · exact bufEvolve_refl s
    · rcases hps : p s ((nextPoi s rfirst).1).1 with ⟨res, s2, c2⟩
      have hev : bufEvolve s s2 := by
        have := hp s ((nextPoi s rfirst).1).1
        rw [hps] at this
        exact this
      cases res with
      | ok v => exact bufEvolve_trans hev (ih s2 c2 start (acc ++ [v]))
      | error e => exact hev
    · rcases hfc : findUnescClose s ((nextPoi s rfirst).1).1 with _ | j
      · exact bufEvolve_refl s
      · obtain ⟨hj1, hj2, hj3⟩ := findUnescClose_char s _ j hfc
        exact bufEvolve_trans (bufEvolve_set_blank s j (Or.inr hj3))
          (vecInner_frame p hp fuel (s.set j ' ') ((nextPoi s rfirst).1).1
            ((nextPoi s rfirst).1).1 j acc)

theorem vecParse_frame {α : Type} (p : ElemP α)
    (hp : ∀ s i, bufEvolve s (p s i).2.1) (fuel : Nat) (s : Str) (start : Nat) :
    bufEvolve s (vecParse p fuel s start).2.1 := by
  simp only [vecParse]
  split_ifs with h1 h2
  · exact bufEvolve_refl s
  · exact bufEvolve_refl s
  · push_neg at h2
    exact bufEvolve_trans (bufEvolve_set_blank s ((nextPoi s start).1).1 (Or.inl h2))
      (vecOuter_frame p hp fuel _ ((nextPoi s start).1).1 ((nextPoi s start).1).2 [])

theorem boolCmpLoop_frame :
    ∀ (s : Str) (first second : Nat) (target : Str) (i : Nat),
      (boolCmpLoop s first second target i).1.length = s.length
      ∧ ∀ j, j < s.length →
          chAt (boolCmpLoop s first second target i).1 j = chAt s j
          ∨ (i ≤ j ∧ j < second
              ∧ chAt (boolCmpLoop s first second target i).1 j = toLowerC (chAt s j)) := by
  intro s first second target i
  induction s, first, second, target, i using boolCmpLoop.induct with
  | case1 s first second target i hi hmis =>
    rw [boolCmpLoop.eq_def, dif_pos hi, if_pos hmis]
    refine ⟨by simp, fun j hj => ?_⟩
    by_cases hij : j = i
    · subst hij
      exact Or.inr ⟨le_refl j, hi, chAt_set_self s j _ hj⟩
    · exact Or.inl (chAt_set_other s i j _ hij)
  | case2 s first second target i hi s2 hmis ih =>
    rw [boolCmpLoop.eq_def, dif_pos hi, if_neg hmis]
    have hlen2 : (s.set i (toLowerC (chAt s i))).length = s.length := by simp
    refine ⟨ih.1.trans hlen2, fun j hj => ?_⟩
    have hj2 : j < (s.set i (toLowerC (chAt s i))).length := by rwa [hlen2]
    rcases ih.2 j hj2 with h1 | ⟨h1, h2, h3⟩
    · by_cases hij : j = i
      · subst hij
        rw [h1, chAt_set_self s j _ hj]
        exact Or.inr ⟨le_refl j, hi, rfl⟩
      · rw [h1, chAt_set_other s i j _ hij]
        exact Or.inl rfl
    · by_cases hij : j = i
      · omega
      · rw [chAt_set_other s i j _ hij] at h3
        exact Or.inr ⟨by omega, h2, h3⟩
  | case3 s first second target i hi =>
    rw [boolCmpLoop.eq_def, dif_neg hi]
    exact ⟨rfl, fun j hj => Or.inl rfl⟩

/-- The two shapes a `NextPoi` result can take: the sentinel
`(size+1, size)`, or a nonempty token range inside the buffer. -/
theorem nextPoi_cases (s : Str) (start : Nat) :
    ((nextPoi s start).1.1 = s.length + 1 ∧ (nextPoi s start).1.2 = s.length)
    ∨ ((nextPoi s start).1.1 < (nextPoi s start).1.2
        ∧ (nextPoi s start).1.2 ≤ s.length) := by
  unfold nextPoi
  by_cases hp1 : scanWhile s isSpaceC start < s.length
  · rw [if_pos hp1]
    right
    have hstop : isSpaceC (chAt s (scanWhile s isSpaceC start)) = false :=
      scanWhile_stop s isSpaceC start hp1
    have hstep := scanWhile_step s (fun ch => !isSpaceC ch) (scanWhile s isSpaceC start)
      hp1 (by simp [hstop])
    have hge := scanWhile_ge s (fun ch => !isSpaceC ch) (scanWhile s isSpaceC start + 1)
    have hle := scanWhile_le_len s (fun ch => !isSpaceC ch)
      (scanWhile s isSpaceC start) (le_of_lt hp1)
    constructor
    · simp only []
      omega
    · simpa using hle
  · rw [if_neg hp1]
    left
    exact ⟨rfl, rfl⟩

theorem C7_amended :
    (∀ (s : Str) (start : Nat),
      (boolParse s start).2.1.length = s.length
      ∧ ∀ j, j < s.length →
          chAt (boolParse s start).2.1 j = chAt s j
          ∨ ((nextPoi s start).1.1 ≤ j ∧ j < (nextPoi s start).1.2
              ∧ chAt (boolParse s start).2.1 j = toLowerC (chAt s j)))
    ∧ (∀ (α : Type) (p : ElemP α),
        (∀ s i, bufEvolve s (p s i).2.1) →
        ∀ fuel s start, bufEvolve s (vecParse p fuel s start).2.1) := by
  constructor
  · intro s start
    have hset : ∀ j, j < s.length →
        chAt (s.set (nextPoi s start).1.1 (toLowerC (chAt s (nextPoi s start).1.1))) j
            = chAt s j
        ∨ ((nextPoi s start).1.1 ≤ j ∧ j < (nextPoi s start).1.2
            ∧ chAt (s.set (nextPoi s start).1.1
                (toLowerC (chAt s (nextPoi s start).1.1))) j = toLowerC (chAt s j)) := by
      intro j hj
      by_cases hij : j = (nextPoi s start).1.1
      · rcases nextPoi_cases s start with ⟨h1, h2⟩ | ⟨h1, h2⟩
        · omega
        · refine Or.inr ⟨by omega, by omega, ?_⟩
          rw [hij]
          exact chAt_set_self s _ _ (hij ▸ hj)
      · exact Or.inl (chAt_set_other s _ j _ hij)
    have hsetlen : (s.set (nextPoi s start).1.1
        (toLowerC (chAt s (nextPoi s start).1.1))).length = s.length := by simp
    simp only [boolParse]
    split_ifs with h1 h2
    · rcases hbc : boolCmpLoop
          (s.set (nextPoi s start).1.1 (toLowerC (chAt s (nextPoi s start).1.1)))
          (nextPoi s start).1.1 (nextPoi s start).1.2 ['t', 'r', 'u', 'e']
          ((nextPoi s start).1.1 + 1) with ⟨s2, flag⟩
      have hfr := boolCmpLoop_frame
        (s.set (nextPoi s start).1.1 (toLowerC (chAt s (nextPoi s start).1.1)))
        (nextPoi s start).1.1 (nextPoi s start).1.2 ['t', 'r', 'u', 'e']
        ((nextPoi s start).1.1 + 1)
      rw [hbc] at hfr
      have hout : ∀ j, j < s.length →
          chAt s2 j = chAt s j
          ∨ ((nextPoi s start).1.1 ≤ j ∧ j < (nextPoi s start).1.2
              ∧ chAt s2 j = toLowerC (chAt s j)) := by
        intro j hj
        rcases hfr.2 j (by omega) with h3 | ⟨h3, h4, h5⟩
        · rw [h3]
          exact hset j hj
        · by_cases hij : j = (nextPoi s start).1.1
          · omega
          · rw [chAt_set_other s _ j _ hij] at h5
            exact Or.inr ⟨by omega, h4, h5⟩
      cases flag <;> exact ⟨hfr.1.trans hsetlen, hout⟩
    · rcases hbc : boolCmpLoop
          (s.set (nextPoi s start).1.1 (toLowerC (chAt s (nextPoi s start).1.1)))
          (nextPoi s start).1.1 (nextPoi s start).1.2 ['f', 'a', 'l', 's', 'e']
          ((nextPoi s start).1.1 + 1) with ⟨s2, flag⟩
      have hfr := boolCmpLoop_frame
        (s.set (nextPoi s start).1.1 (toLowerC (chAt s (nextPoi s start).1.1)))
        (nextPoi s start).1.1 (nextPoi s start).1.2 ['f', 'a', 'l', 's', 'e']
        ((nextPoi s start).1.1 + 1)
      rw [hbc] at hfr
      have hout : ∀ j, j < s.length →
          chAt s2 j = chAt s j
          ∨ ((nextPoi s start).1.1 ≤ j ∧ j < (nextPoi s start).1.2
              ∧ chAt s2 j = toLowerC (chAt s j)) := by
        intro j hj
        rcases hfr.2 j (by omega) with h3 | ⟨h3, h4, h5⟩
        · rw [h3]
          exact hset j hj
        · by_cases hij : j = (nextPoi s start).1.1
          · omega
          · rw [chAt_set_other s _ j _ hij] at h5
            exact Or.inr ⟨by omega, h4, h5⟩
      cases flag <;> exact ⟨hfr.1.trans hsetlen, hout⟩
    · exact ⟨hsetlen, hset⟩
  · intro α p hp fuel s start
    exact vecParse_frame p hp fuel s start

theorem C7_counterexample :
    boolParse ['T', 'R', 'U', 'E'] 0 = (.ok true, ['t', 'r', 'u', 'e'], 4)
    ∧ isReservedChar 'T' = false ∧ ('t' : Char) ≠ 'T' ∧ ('t' : Char) ≠ ' ' := by
  refine ⟨?_, by decide, by decide, by decide⟩
  simp [boolParse, nextPoi, scanWhile, chAt, isSpaceC, boolCmpLoop, toLowerC, substrOf]

theorem C7_amended_witness :
    (chAt (boolParse ['T', 'R', 'U', 'E'] 0).2.1 0 = chAt ['T', 'R', 'U', 'E'] 0
      ∨ ((nextPoi ['T', 'R', 'U', 'E'] 0).1.1 ≤ 0
          ∧ 0 < (nextPoi ['T', 'R', 'U', 'E'] 0).1.2
          ∧ chAt (boolParse ['T', 'R', 'U', 'E'] 0).2.1 0
              = toLowerC (chAt ['T', 'R', 'U', 'E'] 0)))
    ∧ bufEvolve ['[', ' ', ']']
        (vecParse (fun s i => (.ok (0 : Nat), s, i)) 5 ['[', ' ', ']'] 0).2.1 :=
  ⟨(C7_amended.1 ['T', 'R', 'U', 'E'] 0).2 0 (by decide),
   C7_amended.2 Nat (fun s i => (.ok 0, s, i)) (fun s _ => bufEvolve_refl s)
     5 ['[', ' ', ']'] 0⟩

/-! ## Theorems: vector argument parsing -/

theorem C5_amended :
    (∀ (α : Type) (p : ElemP α) (fuel : Nat) (s : Str) (start : Nat),
      (nextPoi s start).1.1 = s.length + 1 →
      vecParse p fuel s start = (.ok [], s, (nextPoi s start).1.2))
    ∧ (∀ (α : Type) (p : ElemP α),
        vecParse p 5 ['[', ' ', ']'] 0 = (.ok [], [' ', ' ', ' '], 4))
    ∧ (∀ (α : Type) (p : ElemP α) (s : Str) (start : Nat),
        (nextPoi s start).1.1 = s.length + 1 →
        argParse p s start = (.error (.exc "Not enough arguments were given" s), s, start)) := by
  refine ⟨?_, ?_, ?_⟩
  · intro α p fuel s start h
    simp only [vecParse, if_pos h]
  · intro α p
    simp [vecParse, vecOuter, vecInner, nextPoi, scanWhile, chAt, isSpaceC,
      findUnescClose, isEscaped, isEscapedAux, isReservedChar, isEscapeChar, substrOf]
  · intro α p s start h
    simp only [argParse, strEnd, if_pos h]

theorem C5_amended_witness :
    vecParse (fun s i => ((.ok (0 : Nat)), s, i)) 3 [] 0 = (.ok [], [], 0)
    ∧ vecParse (fun s i => ((.ok (0 : Nat)), s, i)) 5 ['[', ' ', ']'] 0
        = (.ok [], [' ', ' ', ' '], 4)
    ∧ argParse (fun s i => ((.ok (0 : Nat)), s, i)) [] 0
        = (.error (.exc "Not enough arguments were given" []), [], 0) :=
  ⟨(C5_amended.1 Nat (fun s i => ((.ok 0), s, i)) 3 [] 0
      (by simp [nextPoi, scanWhile])).trans (by simp [nextPoi, scanWhile]),
   C5_amended.2.1 Nat (fun s i => ((.ok 0), s, i)),
   (C5_amended.2.2 Nat (fun s i => ((.ok 0), s, i)) [] 0
      (by simp [nextPoi, scanWhile]))⟩

theorem C5_counterexample :
    argParse (vecParse boolParse 5) [] 0
      = (.error (.exc "Not enough arguments were given" []), [], 0) := by
  simp [argParse, strEnd, nextPoi, scanWhile]

end Csys
